import Mathlib

/- Verification of the parallel-transform benchmark program (src/main.cpp).

   The program generates seeded pseudorandom arrays of doubles, applies an
   elementwise operation through five strategies (plain std::transform, the
   seq / par / par_unseq execution policies, and a hand-rolled fixed-thread
   fork-join split), and reports which thread count minimises the measured
   time.  Doubles are modelled as exact numbers (ℚ for the executable parts,
   ℝ for the sine-based slow operation); std::transform with a pure operation
   is modelled as List.map; the fork-join strategy is modelled by its chunk
   computation and the (data-race-free, hence order-independent) chunk writes
   into the result buffer, serialised in spawn order. -/

namespace Bench

/-! ## Data generator (src/main.cpp lines 13-21)

`generate_data` seeds a `std::mt19937` with `seed` and draws `N` variates of
`std::uniform_real_distribution<>(dis_start, dis_end)`.  The Mersenne Twister
mt19937 engine is modelled word for word (32-bit state words as `Nat % 2^32`).
The distribution's bit-level conversion of engine output to a double is
library-internal; it is modelled as combining two 32-bit draws (a double's
53-bit mantissa needs two words) into a rational in `[dis_start, dis_end)`,
which preserves the seeded deterministic draw structure of the source. -/

/-- Truncation to a 32-bit word, as the engine's arithmetic is mod 2^32. -/
def mtLow32 (x : Nat) : Nat := x % 4294967296

/-- mt19937 state: 624 32-bit words plus the position of the next word. -/
structure MT where
  words : Array Nat
  idx : Nat

/-- `std::mt19937 gen(seed)`: linear-congruential state initialisation,
`mt[0] = seed`, `mt[i] = 1812433253 * (mt[i-1] xor (mt[i-1] >> 30)) + i`. -/
def mtInit (seed : Nat) : MT :=
  let words := (List.range 624).foldl
    (fun (ws : Array Nat) i =>
      if i = 0 then ws.push (mtLow32 seed)
      else ws.push (mtLow32 (1812433253 * (ws.getD (i - 1) 0 ^^^ (ws.getD (i - 1) 0 >>> 30)) + i)))
    #[]
  ⟨words, 624⟩

/-- The mt19937 twist step, regenerating all 624 words in place. -/
def mtTwist (ws : Array Nat) : Array Nat :=
  (List.range 624).foldl
    (fun w i =>
      let x := (w.getD i 0 &&& 2147483648) + (w.getD ((i + 1) % 624) 0 &&& 2147483647)
      let xA := (x >>> 1) ^^^ (if x % 2 = 1 then 2567483615 else 0)
      w.set! i ((w.getD ((i + 397) % 624) 0) ^^^ xA))
    ws

/-- The mt19937 tempering transform applied to each extracted word. -/
def mtTemper (y : Nat) : Nat :=
  let y1 := y ^^^ (y >>> 11)
  let y2 := y1 ^^^ ((y1 <<< 7) &&& 2636928640)
  let y3 := y2 ^^^ ((y2 <<< 15) &&& 4022730752)
  mtLow32 (y3 ^^^ (y3 >>> 18))

/-- Extract one 32-bit variate from the engine, twisting when exhausted. -/
def mtNext (st : MT) : Nat × MT :=
  if st.idx ≥ 624 then
    let ws := mtTwist st.words
    (mtTemper (ws.getD 0 0), ⟨ws, 1⟩)
  else
    (mtTemper (st.words.getD st.idx 0), ⟨st.words, st.idx + 1⟩)

/-- One variate of `uniform_real_distribution<>(a, b)` applied to the engine:
two 32-bit draws build the 64-bit numerator of a rational in `[0,1)`, scaled
affinely into `[a, b)` (the exact double rounding is library-internal). -/
def drawUniform (st : MT) (a b : ℚ) : ℚ × MT :=
  let d1 := mtNext st
  let d2 := mtNext d1.2
  (a + (b - a) * (((d2.1 * 4294967296 + d1.1 : Nat) : ℚ) / 18446744073709551616), d2.2)

/-- The generation loop `for (auto& x : data) x = dis(gen);`, drawing
sequentially from the engine state. -/
def genLoop (a b : ℚ) : Nat → MT → List ℚ
  | 0, _ => []
  | n + 1, st =>
    let v := drawUniform st a b
    v.1 :: genLoop a b n v.2

/-- `generate_data(N, seed, dis_start, dis_end)` (src/main.cpp lines 13-21):
allocate `N` slots and fill them from a freshly seeded engine.  The C++ `int`
seed is converted to the engine's 32-bit word type. -/
def generate_data (N : Nat) (seed : Int) (dis_start dis_end : ℚ) : List ℚ :=
  genLoop dis_start dis_end N (mtInit ((seed % 4294967296).toNat))

/-! ## Operations (src/main.cpp lines 23-33) -/

/-- `fast_op(x) { return x + 1.0; }` (lines 23-25). -/
def fast_op (x : ℚ) : ℚ := x + 1

/-- `slow_op(x)` (lines 27-33): accumulate `sin(i)` for `i = 0..99` into `s`,
then return `s + x`.  Real sine models the double `std::sin`. -/
noncomputable def slow_op (x : ℝ) : ℝ :=
  ((List.range 100).foldl (fun (s : ℝ) (i : ℕ) => s + Real.sin (i : ℝ)) 0) + x

/-! ## Transform strategies (src/main.cpp lines 35-78)

Each measure function allocates `result` of the data's size, applies the
operation elementwise into it, and returns the elapsed time of that region.
The elapsed wall-clock time itself is real-world behaviour outside the
embedding; the embedding records what the program state computes: the data
array after the call (passed by const reference, hence unchanged) and the
result array. -/

/-- Outcome of a measured transform call: the sample array as left by the
call, and the freshly allocated result array. -/
structure MeasureOutcome (α : Type) where
  data_after : List α
  result : List α
  deriving Repr, DecidableEq

/-- `std::transform(first, last, out, op)` with a pure `op`: the elementwise
map of `op` over the input range. -/
def cppTransform {α : Type} (op : α → α) (l : List α) : List α := l.map op

/-- `measure_transform(data, op)` (lines 35-41): `result(data.size())`, then
`std::transform(data.cbegin(), data.cend(), result.begin(), op)`. -/
def measure_transform {α : Type} (data : List α) (op : α → α) : MeasureOutcome α :=
  ⟨data, cppTransform op data⟩

/-- The three standard execution policies passed to `std::transform`. -/
inductive ExecutionPolicy
  | seq
  | par
  | par_unseq
  deriving Repr, DecidableEq

/-- `measure_policy_transform(data, op, policy)` (lines 43-49): the policy
only constrains scheduling; with a pure operation `std::transform` under any
standard policy produces the elementwise map. -/
def measure_policy_transform {α : Type} (data : List α) (op : α → α)
    (_policy : ExecutionPolicy) : MeasureOutcome α :=
  ⟨data, cppTransform op data⟩

/-! ## Custom fixed-thread fork-join strategy (src/main.cpp lines 51-78) -/

/-- The chunk loop of `measure_custom_parallel_transform` (lines 62-70):
starting at index `s` with loop counter `i` and `cnt` iterations left, each
iteration ends its chunk at `current_start + chunk_size + (i < remainder ? 1 : 0)`
and continues from there. -/
def chunksGo (chunkSize rem : Nat) : Nat → Nat → Nat → List (Nat × Nat)
  | _, 0, _ => []
  | i, cnt + 1, s =>
    (s, s + chunkSize + (if i < rem then 1 else 0)) ::
      chunksGo chunkSize rem (i + 1) cnt (s + chunkSize + (if i < rem then 1 else 0))

/-- The `[current_start, current_end)` bounds of the `K` chunks for an array
of length `N`: `chunk_size = N / K`, `remainder = N % K` (lines 59-60). -/
def chunkBounds (N K : Nat) : List (Nat × Nat) :=
  chunksGo (N / K) (N % K) 0 K 0

/-- One worker's write (line 66-67): `std::transform` over
`data[s, e)` written into `result` starting at offset `s`. -/
def writeChunk {α : Type} (res : List α) (s : Nat) (vals : List α) : List α :=
  res.take s ++ vals ++ res.drop (s + vals.length)

/-- The joined effect of the spawned workers on the result buffer.  The chunk
ranges are pairwise disjoint, so the concurrent writes are race-free and any
serialisation yields the same buffer; they are serialised in spawn order. -/
def runThreads {α : Type} (op : α → α) (data : List α)
    (bounds : List (Nat × Nat)) (res : List α) : List α :=
  bounds.foldl
    (fun r b => writeChunk r b.1 (cppTransform op ((data.drop b.1).take (b.2 - b.1)))) res

/-- Outcome of the custom strategy: the sample array after the call, the
result array, and the number of worker threads spawned (one `emplace_back`
per chunk-loop iteration). -/
structure CustomOutcome (α : Type) where
  data_after : List α
  result : List α
  threads : Nat
  deriving Repr, DecidableEq

/-- `measure_custom_parallel_transform(data, op, K)` (lines 51-78):
`if (K <= 0) K = 1;`, compute the `K` chunk bounds of `[0, N)`, spawn one
worker per chunk transforming its slice into the zero-initialised
`result(N)`, and join them all. -/
def measure_custom_parallel_transform {α : Type} [Inhabited α]
    (data : List α) (op : α → α) (K : Int) : CustomOutcome α :=
  let Kc : Int := if K ≤ 0 then 1 else K
  let N := data.length
  let bounds := chunkBounds N Kc.toNat
  ⟨data, runThreads op data bounds (List.replicate N default), bounds.length⟩

/-! ## Reporting: best-K selection (src/main.cpp lines 80-101)

`measure_and_print_custom_parallel` loops over the candidate list, printing a
`(K, time)` row per candidate and tracking the strict minimum of the measured
times, starting from `min_time = DBL_MAX`, `best_K = 1`.  The measured times
are real-world inputs; the model takes them as an oracle `time : Int → ℚ`
and returns the printed table together with the reported best K. -/

/-- Total number of indices covered by `cnt` chunks of the chunk loop
starting at loop counter `i` (proof-side accounting for `chunksGo`). -/
def totalSize (chunkSize rem : Nat) : Nat → Nat → Nat
  | _, 0 => 0
  | i, cnt + 1 => (chunkSize + if i < rem then 1 else 0) + totalSize chunkSize rem (i + 1) cnt

/-- `std::numeric_limits<double>::max()` = (2^53 - 1) * 2^971, exactly. -/
def dblMax : ℚ := (2 ^ 53 - 1) * 2 ^ 971

/-- `measure_and_print_custom_parallel(data, op, K_values, num_cores)`
(lines 80-101), restricted to its observable output: the list of printed
`(K, time_custom)` rows in candidate order, and the `best_K` printed at the
end, tracked with `if (time_custom < min_time)`. -/
def measure_and_print_custom_parallel (time : Int → ℚ) (K_values : List Int) :
    List (Int × ℚ) × Int :=
  let final := K_values.foldl
    (fun (st : List (Int × ℚ) × ℚ × Int) K =>
      (st.1 ++ [(K, time K)], if time K < st.2.1 then (time K, K) else st.2))
    ([], dblMax, 1)
  (final.1, final.2.2)

/-- The min-tracking part of the reporting loop in isolation (proof-side
restatement of the fold's second component). -/
def selectBest (time : Int → ℚ) : List Int → ℚ × Int → ℚ × Int
  | [], acc => acc
  | K :: ks, acc => selectBest time ks (if time K < acc.1 then (time K, K) else acc)

/-! ## Lemmas about the chunk computation -/

theorem chunksGo_succ (cs rem i cnt s : Nat) :
    chunksGo cs rem i (cnt + 1) s
      = (s, s + cs + (if i < rem then 1 else 0)) ::
          chunksGo cs rem (i + 1) cnt (s + cs + (if i < rem then 1 else 0)) := rfl

theorem chunksGo_length (cs rem : Nat) :
    ∀ cnt i s, (chunksGo cs rem i cnt s).length = cnt := by
  intro cnt
  induction cnt with
  | zero => intro i s; rfl
  | succ n ih => intro i s; rw [chunksGo_succ, List.length_cons, ih]

theorem chunksGo_sizes (cs rem : Nat) :
    ∀ cnt i s, (chunksGo cs rem i cnt s).map (fun p => p.2 - p.1)
      = (List.range cnt).map (fun j => cs + if i + j < rem then 1 else 0) := by
  intro cnt
  induction cnt with
  | zero => intro i s; rfl
  | succ n ih =>
    intro i s
    rw [chunksGo_succ, List.map_cons, ih (i + 1), List.range_succ_eq_map, List.map_cons,
      List.map_map]
    congr 1
    · by_cases h : i < rem <;> simp [h] <;> omega
    · apply List.map_congr_left
      intro j _
      simp only [Function.comp_apply, Nat.succ_eq_add_one]
      have hij : i + (j + 1) = i + 1 + j := by omega
      rw [hij]

theorem totalSize_succ (cs rem i cnt : Nat) :
    totalSize cs rem i (cnt + 1)
      = (cs + if i < rem then 1 else 0) + totalSize cs rem (i + 1) cnt := rfl

theorem totalSize_eq (cs rem : Nat) :
    ∀ cnt i, totalSize cs rem i cnt = cnt * cs + (min (i + cnt) rem - min i rem) := by
  intro cnt
  induction cnt with
  | zero => intro i; simp [totalSize]
  | succ n ih =>
    intro i
    rw [totalSize_succ, ih (i + 1), Nat.succ_mul]
    generalize n * cs = M
    by_cases h : i < rem <;> simp [h] <;> omega

theorem totalSize_div_mod (N K : Nat) (hK : 1 ≤ K) :
    totalSize (N / K) (N % K) 0 K = N := by
  rw [totalSize_eq]
  have h1 : N % K < K := Nat.mod_lt _ hK
  have h3 : min (0 + K) (N % K) = N % K := by omega
  have h4 : min 0 (N % K) = 0 := by omega
  rw [h3, h4, Nat.sub_zero]
  exact Nat.div_add_mod N K

theorem chunksGo_sizes_sum (cs rem : Nat) :
    ∀ cnt i s, ((chunksGo cs rem i cnt s).map (fun p => p.2 - p.1)).sum
      = totalSize cs rem i cnt := by
  intro cnt
  induction cnt with
  | zero => intro i s; rfl
  | succ n ih =>
    intro i s
    rw [chunksGo_succ, List.map_cons, List.sum_cons, ih (i + 1), totalSize_succ]
    generalize totalSize cs rem (i + 1) n = T
    by_cases h : i < rem <;> simp [h] <;> omega

theorem chunksGo_chain (cs rem : Nat) :
    ∀ cnt i s, List.Chain' (fun p q : Nat × Nat => p.2 = q.1) (chunksGo cs rem i cnt s) := by
  intro cnt
  induction cnt with
  | zero => intro i s; exact List.chain'_nil
  | succ n ih =>
    intro i s
    cases n with
    | zero => simp [chunksGo]
    | succ m =>
      have h := ih (i + 1) (s + cs + (if i < rem then 1 else 0))
      rw [chunksGo_succ] at h ⊢
      rw [chunksGo_succ]
      exact List.chain'_cons.mpr ⟨rfl, h⟩

theorem chunksGo_mem_le (cs rem : Nat) :
    ∀ cnt i s, ∀ p ∈ chunksGo cs rem i cnt s, p.1 ≤ p.2 := by
  intro cnt
  induction cnt with
  | zero => intro i s p hp; simp [chunksGo] at hp
  | succ n ih =>
    intro i s p hp
    rw [chunksGo_succ] at hp
    rcases List.mem_cons.mp hp with h | h
    · subst h
      by_cases hir : i < rem <;> simp [hir] <;> omega
    · exact ih (i + 1) _ p h

theorem chunkBounds_length (N K : Nat) : (chunkBounds N K).length = K :=
  chunksGo_length _ _ K 0 0

theorem chunkBounds_one (N : Nat) : chunkBounds N 1 = [(0, N)] := by
  rw [chunkBounds]
  rw [show chunksGo (N / 1) (N % 1) 0 1 0
      = (0, 0 + N / 1 + (if 0 < N % 1 then 1 else 0)) ::
          chunksGo (N / 1) (N % 1) 1 0 (0 + N / 1 + (if 0 < N % 1 then 1 else 0))
    from chunksGo_succ _ _ 0 0 0]
  simp [chunksGo, Nat.div_one, Nat.mod_one]

/-! ## Lemmas about the fork-join write composition -/

theorem runThreads_nil {α : Type} (op : α → α) (data res : List α) :
    runThreads op data [] res = res := rfl

theorem runThreads_cons {α : Type} (op : α → α) (data res : List α) (b : Nat × Nat)
    (bs : List (Nat × Nat)) :
    runThreads op data (b :: bs) res
      = runThreads op data bs
          (writeChunk res b.1 (cppTransform op ((data.drop b.1).take (b.2 - b.1)))) := rfl

/-- Composed effect of the chunk writes: the workers for `cnt` consecutive
chunks starting at index `s` overwrite exactly `res[s, s + total)` with the
mapped data slice, and touch nothing else. -/
theorem runThreads_go {α : Type} (op : α → α) (data : List α) (cs rem : Nat) :
    ∀ cnt i s res, res.length = data.length →
      s + totalSize cs rem i cnt ≤ data.length →
      runThreads op data (chunksGo cs rem i cnt s) res
        = res.take s ++ ((data.drop s).take (totalSize cs rem i cnt)).map op
            ++ res.drop (s + totalSize cs rem i cnt) := by
  intro cnt
  induction cnt with
  | zero =>
    intro i s res hlen hle
    show runThreads op data [] res = _
    rw [runThreads_nil]
    show res = res.take s ++ ((data.drop s).take 0).map op ++ res.drop (s + 0)
    simp [List.take_append_drop]
  | succ n ih =>
    intro i s res hlen hle
    rw [totalSize_succ] at hle ⊢
    rw [chunksGo_succ, runThreads_cons]
    dsimp only
    generalize (if i < rem then 1 else 0 : Nat) = t at hle ⊢
    have ha : s + cs + t - s = cs + t := by omega
    rw [ha]
    simp only [cppTransform, writeChunk]
    have hv : (((data.drop s).take (cs + t)).map op).length = cs + t := by
      simp only [List.length_map, List.length_take, List.length_drop]
      omega
    rw [hv]
    have h1 : (res.take s ++ ((data.drop s).take (cs + t)).map op
        ++ res.drop (s + (cs + t))).length = data.length := by
      simp only [List.length_append, List.length_take, List.length_drop, hv]
      omega
    have h2 : (s + cs + t) + totalSize cs rem (i + 1) n ≤ data.length := by omega
    rw [ih (i + 1) (s + cs + t) _ h1 h2]
    generalize totalSize cs rem (i + 1) n = T at *
    have hAB : (res.take s ++ ((data.drop s).take (cs + t)).map op).length = s + cs + t := by
      simp only [List.length_append, List.length_take, hv]
      omega
    rw [List.take_left' hAB]
    rw [show s + cs + t + T = (res.take s ++ ((data.drop s).take (cs + t)).map op).length + T
      from by rw [hAB]]
    rw [List.drop_append]
    rw [List.take_add, List.map_append]
    simp only [List.drop_drop]
    rw [show s + (cs + t) = s + cs + t from by omega]
    rw [show s + (cs + t + T) = s + cs + t + T from by omega]
    simp only [List.append_assoc]
    rw [List.take_add, List.take_add]
    simp [List.drop_drop, List.append_assoc, Nat.add_assoc]

/-- The custom strategy computes exactly the elementwise map: the coerced
thread count's chunks tile `[0, N)`, and the workers' writes fill the whole
result buffer with `op` applied to the corresponding data elements. -/
theorem measure_custom_result_eq {α : Type} [Inhabited α] (data : List α) (op : α → α)
    (K : Int) :
    (measure_custom_parallel_transform data op K).result = data.map op := by
  have hk1 : 1 ≤ (if K ≤ 0 then 1 else K : Int).toNat := by
    by_cases h : K ≤ 0 <;> simp [h] <;> omega
  show runThreads op data (chunkBounds data.length (if K ≤ 0 then 1 else K : Int).toNat)
      (List.replicate data.length default) = data.map op
  generalize (if K ≤ 0 then 1 else K : Int).toNat = k at hk1
  rw [chunkBounds]
  rw [runThreads_go op data (data.length / k) (data.length % k) k 0 0
    (List.replicate data.length default) (by rw [List.length_replicate])
    (by rw [Nat.zero_add, totalSize_div_mod _ _ hk1])]
  rw [totalSize_div_mod _ _ hk1]
  simp

/-- The custom strategy spawns one worker per chunk: the coerced K. -/
theorem measure_custom_threads {α : Type} [Inhabited α] (data : List α) (op : α → α)
    (K : Int) :
    (measure_custom_parallel_transform data op K).threads
      = (if K ≤ 0 then 1 else K : Int).toNat := by
  show (chunkBounds data.length (if K ≤ 0 then 1 else K : Int).toNat).length = _
  rw [chunkBounds_length]

/-! ## Lemmas about the data generator -/

theorem genLoop_length (a b : ℚ) : ∀ n st, (genLoop a b n st).length = n := by
  intro n
  induction n with
  | zero => intro st; rfl
  | succ m ih => intro st; simp [genLoop, ih]

theorem generate_data_length (N : Nat) (seed : Int) (a b : ℚ) :
    (generate_data N seed a b).length = N :=
  genLoop_length a b N _

/-! ## Lemmas about the best-K selection fold -/

theorem report_fold_fst (time : Int → ℚ) :
    ∀ (l : List Int) (rows : List (Int × ℚ)) (acc : ℚ × Int),
      (l.foldl
        (fun (st : List (Int × ℚ) × ℚ × Int) K =>
          (st.1 ++ [(K, time K)], if time K < st.2.1 then (time K, K) else st.2))
        (rows, acc)).1 = rows ++ l.map (fun K => (K, time K)) := by
  intro l
  induction l with
  | nil => intro rows acc; simp
  | cons K ks ih =>
    intro rows acc
    rw [List.foldl_cons]
    dsimp only
    rw [ih]
    simp

theorem report_fold_snd (time : Int → ℚ) :
    ∀ (l : List Int) (rows : List (Int × ℚ)) (acc : ℚ × Int),
      (l.foldl
        (fun (st : List (Int × ℚ) × ℚ × Int) K =>
          (st.1 ++ [(K, time K)], if time K < st.2.1 then (time K, K) else st.2))
        (rows, acc)).2 = selectBest time l acc := by
  intro l
  induction l with
  | nil => intro rows acc; rfl
  | cons K ks ih =>
    intro rows acc
    rw [List.foldl_cons]
    dsimp only
    rw [ih]
    rfl

theorem selectBest_no_beat (time : Int → ℚ) :
    ∀ (l : List Int) (acc : ℚ × Int), (∀ K ∈ l, acc.1 ≤ time K) →
      selectBest time l acc = acc := by
  intro l
  induction l with
  | nil => intro acc _; rfl
  | cons K ks ih =>
    intro acc h
    show selectBest time ks (if time K < acc.1 then (time K, K) else acc) = acc
    rw [if_neg (not_lt.mpr (h K (List.mem_cons_self K ks)))]
    exact ih acc fun K' hK' => h K' (List.mem_cons_of_mem _ hK')

theorem selectBest_beat (time : Int → ℚ) :
    ∀ (l : List Int) (acc : ℚ × Int), (∃ K ∈ l, time K < acc.1) →
      ∃ i : Fin l.length,
        selectBest time l acc = (time (l.get i), l.get i) ∧
        time (l.get i) < acc.1 ∧
        (∀ j : Fin l.length, time (l.get i) ≤ time (l.get j)) ∧
        (∀ j : Fin l.length, (j : Nat) < (i : Nat) → time (l.get i) < time (l.get j)) := by
  intro l
  induction l with
  | nil => intro acc h; simp at h
  | cons K ks ih =>
    intro acc h
    show ∃ i, selectBest time ks (if time K < acc.1 then (time K, K) else acc) = _ ∧ _
    by_cases hK : time K < acc.1
    · rw [if_pos hK]
      by_cases hks : ∃ K' ∈ ks, time K' < time K
      · obtain ⟨i', h1, h2, h3, h4⟩ := ih (time K, K) hks
        refine ⟨i'.succ, ?_, ?_, ?_, ?_⟩
        · simpa using h1
        · simpa using lt_trans h2 hK
        · intro j
          rcases j with ⟨jv, hj⟩
          cases jv with
          | zero => simpa using le_of_lt h2
          | succ m => simpa using h3 ⟨m, by simpa using hj⟩
        · intro j hj
          rcases j with ⟨jv, hjlt⟩
          cases jv with
          | zero => simpa using h2
          | succ m =>
            have hm : m < (i' : Nat) := by simpa using hj
            simpa using h4 ⟨m, by simpa using hjlt⟩ hm
      · push_neg at hks
        have hrest := selectBest_no_beat time ks (time K, K) hks
        refine ⟨⟨0, by simp⟩, ?_, hK, ?_, ?_⟩
        · simpa using hrest
        · intro j
          rcases j with ⟨jv, hj⟩
          cases jv with
          | zero => simp
          | succ m =>
            have := hks (ks.get ⟨m, by simpa using hj⟩) (List.get_mem _ _ _)
            simpa using this
        · intro j hj
          simp at hj
    · rw [if_neg hK]
      have hks : ∃ K' ∈ ks, time K' < acc.1 := by
        obtain ⟨K'', hmem, hlt⟩ := h
        rcases List.mem_cons.mp hmem with he | hin
        · exact absurd (he ▸ hlt) hK
        · exact ⟨K'', hin, hlt⟩
      obtain ⟨i', h1, h2, h3, h4⟩ := ih acc hks
      have hKge : acc.1 ≤ time K := not_lt.mp hK
      refine ⟨i'.succ, ?_, ?_, ?_, ?_⟩
      · simpa using h1
      · simpa using h2
      · intro j
        rcases j with ⟨jv, hj⟩
        cases jv with
        | zero => simpa using le_of_lt (lt_of_lt_of_le h2 hKge)
        | succ m => simpa using h3 ⟨m, by simpa using hj⟩
      · intro j hj
        rcases j with ⟨jv, hjlt⟩
        cases jv with
        | zero => simpa using lt_of_lt_of_le h2 hKge
        | succ m =>
          have hm : m < (i' : Nat) := by simpa using hj
          simpa using h4 ⟨m, by simpa using hjlt⟩ hm

/-! ## Lemmas about the slow operation -/

theorem foldl_add_sin (l : List ℕ) :
    ∀ a : ℝ, l.foldl (fun (s : ℝ) (i : ℕ) => s + Real.sin (i : ℝ)) a
      = a + (l.map (fun (i : ℕ) => Real.sin (i : ℝ))).sum := by
  induction l with
  | nil => intro a; simp
  | cons c cs ih =>
    intro a
    rw [List.foldl_cons, ih, List.map_cons, List.sum_cons]
    ring

theorem range_map_sum_sin :
    ∀ n, ((List.range n).map (fun (i : ℕ) => Real.sin (i : ℝ))).sum
      = ∑ i ∈ Finset.range n, Real.sin (i : ℝ) := by
  intro n
  induction n with
  | zero => simp
  | succ m ih =>
    rw [List.range_succ, List.map_append, List.sum_append, Finset.sum_range_succ, ih]
    simp

theorem slow_op_eq (x : ℝ) :
    slow_op x = (∑ i ∈ Finset.range 100, Real.sin (i : ℝ)) + x := by
  show ((List.range 100).foldl (fun (s : ℝ) (i : ℕ) => s + Real.sin (i : ℝ)) 0) + x = _
  rw [foldl_add_sin, range_map_sum_sin]
  ring

/-! ## The claims -/

/-- C1: for every non-empty sample array, operation, and K ≥ 1, the plain
transform, the three policy transforms, and the custom fixed-thread split
produce identical output arrays; in particular, for the fast operation the
custom strategy's output equals the plain transform's output. -/
theorem C1_strategies_agree (op : ℚ → ℚ) (data : List ℚ) (K : Int)
    (hne : data ≠ []) (hK : 1 ≤ K) :
    (measure_transform data op).result
        = (measure_policy_transform data op ExecutionPolicy.seq).result ∧
    (measure_policy_transform data op ExecutionPolicy.seq).result
        = (measure_policy_transform data op ExecutionPolicy.par).result ∧
    (measure_policy_transform data op ExecutionPolicy.par).result
        = (measure_policy_transform data op ExecutionPolicy.par_unseq).result ∧
    (measure_policy_transform data op ExecutionPolicy.par_unseq).result
        = (measure_custom_parallel_transform data op K).result ∧
    (measure_custom_parallel_transform data fast_op K).result
        = (measure_transform data fast_op).result := by
  refine ⟨rfl, rfl, rfl, ?_, ?_⟩
  · exact (measure_custom_result_eq data op K).symm
  · exact measure_custom_result_eq data fast_op K

theorem C1_strategies_agree_witness :
    (([0, 1/2, 1] : List ℚ) ≠ []) ∧ ((1 : Int) ≤ 2) ∧
    ((measure_transform ([0, 1/2, 1] : List ℚ) fast_op).result
        = (measure_policy_transform ([0, 1/2, 1] : List ℚ) fast_op ExecutionPolicy.seq).result ∧
      (measure_policy_transform ([0, 1/2, 1] : List ℚ) fast_op ExecutionPolicy.seq).result
        = (measure_policy_transform ([0, 1/2, 1] : List ℚ) fast_op ExecutionPolicy.par).result ∧
      (measure_policy_transform ([0, 1/2, 1] : List ℚ) fast_op ExecutionPolicy.par).result
        = (measure_policy_transform ([0, 1/2, 1] : List ℚ) fast_op ExecutionPolicy.par_unseq).result ∧
      (measure_policy_transform ([0, 1/2, 1] : List ℚ) fast_op ExecutionPolicy.par_unseq).result
        = (measure_custom_parallel_transform ([0, 1/2, 1] : List ℚ) fast_op 2).result ∧
      (measure_custom_parallel_transform ([0, 1/2, 1] : List ℚ) fast_op 2).result
        = (measure_transform ([0, 1/2, 1] : List ℚ) fast_op).result) :=
  ⟨by decide, by decide, C1_strategies_agree fast_op [0, 1/2, 1] 2 (by decide) (by decide)⟩

/-- C2: for every array length N and every K ≥ 1, the chunk computation of the
custom strategy yields exactly K chunks; their sizes sum to N, follow the
formula N / K plus one extra for the first N mod K chunks, and differ by at
most one; the chunks are contiguous (each ends where the next starts),
well-formed, and start at index 0. -/
theorem C2_chunk_partition (N K : Nat) (hK : 1 ≤ K) :
    (chunkBounds N K).length = K ∧
    ((chunkBounds N K).map (fun p => p.2 - p.1)).sum = N ∧
    ((chunkBounds N K).map (fun p => p.2 - p.1))
      = (List.range K).map (fun i => N / K + if i < N % K then 1 else 0) ∧
    (∀ a ∈ (chunkBounds N K).map (fun p => p.2 - p.1),
      ∀ b ∈ (chunkBounds N K).map (fun p => p.2 - p.1), a ≤ b + 1) ∧
    List.Chain' (fun p q : Nat × Nat => p.2 = q.1) (chunkBounds N K) ∧
    (∀ p ∈ chunkBounds N K, p.1 ≤ p.2) ∧
    ((chunkBounds N K).headD (0, 0)).1 = 0 := by
  have hsizes : ((chunkBounds N K).map (fun p => p.2 - p.1))
      = (List.range K).map (fun i => N / K + if i < N % K then 1 else 0) := by
    rw [chunkBounds, chunksGo_sizes]
    apply List.map_congr_left
    intro j _
    rw [Nat.zero_add]
  refine ⟨chunkBounds_length N K, ?_, hsizes, ?_, ?_, ?_, ?_⟩
  · rw [chunkBounds, chunksGo_sizes_sum, totalSize_div_mod N K hK]
  · intro a ha b hb
    rw [hsizes] at ha hb
    obtain ⟨i, _, rfl⟩ := List.mem_map.mp ha
    obtain ⟨j, _, rfl⟩ := List.mem_map.mp hb
    by_cases hi : i < N % K <;> by_cases hj : j < N % K <;> simp [hi, hj] <;> omega
  · rw [chunkBounds]; exact chunksGo_chain _ _ K 0 0
  · rw [chunkBounds]; exact chunksGo_mem_le _ _ K 0 0
  · obtain ⟨k, rfl⟩ := Nat.exists_eq_add_of_le hK
    rw [chunkBounds]
    rw [show (1 + k) = k + 1 from by omega, chunksGo_succ]
    rfl

theorem C2_chunk_partition_witness :
    (1 ≤ 4) ∧
    ((chunkBounds 10 4).length = 4 ∧
      ((chunkBounds 10 4).map (fun p => p.2 - p.1)).sum = 10 ∧
      ((chunkBounds 10 4).map (fun p => p.2 - p.1))
        = (List.range 4).map (fun i => 10 / 4 + if i < 10 % 4 then 1 else 0) ∧
      (∀ a ∈ (chunkBounds 10 4).map (fun p => p.2 - p.1),
        ∀ b ∈ (chunkBounds 10 4).map (fun p => p.2 - p.1), a ≤ b + 1) ∧
      List.Chain' (fun p q : Nat × Nat => p.2 = q.1) (chunkBounds 10 4) ∧
      (∀ p ∈ chunkBounds 10 4, p.1 ≤ p.2) ∧
      ((chunkBounds 10 4).headD (0, 0)).1 = 0) :=
  ⟨by decide, C2_chunk_partition 10 4 (by decide)⟩

/-- C3: for every K ≤ 0 the custom strategy behaves exactly as if K = 1: the
whole outcome (data, result, spawned workers) coincides with the K = 1 run,
exactly one worker is spawned, and the single chunk covers the whole array. -/
theorem C3_nonpositive_K {α : Type} [Inhabited α] (data : List α) (op : α → α) (K : Int)
    (hK : K ≤ 0) :
    measure_custom_parallel_transform data op K
        = measure_custom_parallel_transform data op 1 ∧
    (measure_custom_parallel_transform data op K).threads = 1 ∧
    chunkBounds data.length 1 = [(0, data.length)] := by
  have h1 : (if K ≤ 0 then 1 else K : Int) = 1 := if_pos hK
  have h2 : (if (1 : Int) ≤ 0 then 1 else 1 : Int) = 1 := by norm_num
  refine ⟨?_, ?_, chunkBounds_one data.length⟩
  · simp only [measure_custom_parallel_transform, h1, h2]
  · rw [measure_custom_threads, h1]
    rfl

theorem C3_nonpositive_K_witness :
    ((-3 : Int) ≤ 0) ∧
    (measure_custom_parallel_transform ([2, 7] : List ℚ) fast_op (-3)
        = measure_custom_parallel_transform ([2, 7] : List ℚ) fast_op 1 ∧
      (measure_custom_parallel_transform ([2, 7] : List ℚ) fast_op (-3)).threads = 1 ∧
      chunkBounds ([2, 7] : List ℚ).length 1 = [(0, ([2, 7] : List ℚ).length)]) :=
  ⟨by decide, C3_nonpositive_K ([2, 7] : List ℚ) fast_op (-3) (by decide)⟩

/-- C4: the data generator is deterministic — two invocations with equal
count, seed and range bounds return equal sequences — and a zero count yields
the empty sequence. -/
theorem C4_generate_data_deterministic (N N' : Nat) (seed seed' : Int) (a a' b b' : ℚ)
    (h1 : N = N') (h2 : seed = seed') (h3 : a = a') (h4 : b = b') :
    generate_data N seed a b = generate_data N' seed' a' b' ∧
    generate_data 0 seed a b = [] := by
  subst h1; subst h2; subst h3; subst h4
  exact ⟨rfl, rfl⟩

theorem C4_generate_data_deterministic_witness :
    ((3 : Nat) = 3) ∧
    (generate_data 3 42 0 1 = generate_data 3 42 0 1 ∧ generate_data 0 42 0 1 = []) :=
  ⟨rfl, C4_generate_data_deterministic 3 3 42 42 0 0 1 1 rfl rfl rfl rfl⟩

/-- C5: for a non-empty candidate list (with measured times below DBL_MAX, as
every finite measured duration is), the reporting layer prints exactly one
(K, time) row per candidate in candidate order, and the reported best K is a
member of the candidate list whose time attains the minimum over the list. -/
theorem C5_report_best (time : Int → ℚ) (K_values : List Int)
    (hne : K_values ≠ []) (hlt : ∀ K ∈ K_values, time K < dblMax) :
    (measure_and_print_custom_parallel time K_values).1
        = K_values.map (fun K => (K, time K)) ∧
    (measure_and_print_custom_parallel time K_values).2 ∈ K_values ∧
    ∀ K ∈ K_values, time (measure_and_print_custom_parallel time K_values).2 ≤ time K := by
  have hfst : (measure_and_print_custom_parallel time K_values).1
      = [] ++ K_values.map (fun K => (K, time K)) :=
    report_fold_fst time K_values [] (dblMax, 1)
  rw [List.nil_append] at hfst
  have hsnd : (measure_and_print_custom_parallel time K_values).2
      = (selectBest time K_values (dblMax, 1)).2 :=
    congrArg Prod.snd (report_fold_snd time K_values [] (dblMax, 1))
  have hbeat : ∃ K ∈ K_values, time K < dblMax := by
    obtain ⟨K0, hK0⟩ := List.exists_mem_of_ne_nil K_values hne
    exact ⟨K0, hK0, hlt K0 hK0⟩
  obtain ⟨i, h1, _, h3, _⟩ := selectBest_beat time K_values (dblMax, 1) hbeat
  refine ⟨hfst, ?_, ?_⟩
  · rw [hsnd, h1]
    exact List.get_mem _ _ _
  · intro K hK
    rw [hsnd, h1]
    obtain ⟨j, hj⟩ := List.mem_iff_get.mp hK
    rw [← hj]
    exact h3 j

theorem C5_report_best_witness :
    (([1, 2, 4, 8] : List Int) ≠ []) ∧
    (∀ K ∈ ([1, 2, 4, 8] : List Int), ((K : ℚ)) < dblMax) ∧
    ((measure_and_print_custom_parallel (fun K => (K : ℚ)) [1, 2, 4, 8]).1
        = ([1, 2, 4, 8] : List Int).map (fun (K : Int) => (K, (K : ℚ))) ∧
      (measure_and_print_custom_parallel (fun K => (K : ℚ))
          [1, 2, 4, 8]).2 ∈ ([1, 2, 4, 8] : List Int) ∧
      ∀ K ∈ ([1, 2, 4, 8] : List Int),
        ((measure_and_print_custom_parallel (fun K => (K : ℚ)) [1, 2, 4, 8]).2 : ℚ)
          ≤ (K : ℚ)) :=
  ⟨by decide, by intro K hK; fin_cases hK <;> norm_num [dblMax],
    C5_report_best (fun K => (K : ℚ)) [1, 2, 4, 8] (by decide)
      (by intro K hK; fin_cases hK <;> norm_num [dblMax])⟩

/-- C6: end-to-end scenario — 10,000 generated values with seed 42 in [0,1),
fast operation, custom strategy with K = 4: exactly 4 workers are spawned,
the chunk sizes are 2500 each, the output has length 10,000, and every output
element is the corresponding input element plus 1. -/
theorem C6_end_to_end :
    (measure_custom_parallel_transform (generate_data 10000 42 0 1) fast_op 4).threads = 4 ∧
    ((chunkBounds (generate_data 10000 42 0 1).length 4).map fun p => p.2 - p.1)
      = [2500, 2500, 2500, 2500] ∧
    (measure_custom_parallel_transform (generate_data 10000 42 0 1) fast_op 4).result.length
      = 10000 ∧
    (measure_custom_parallel_transform (generate_data 10000 42 0 1) fast_op 4).result
      = (generate_data 10000 42 0 1).map (fun x => x + 1) := by
  have hlen : (generate_data 10000 42 0 1).length = 10000 :=
    generate_data_length 10000 42 0 1
  refine ⟨?_, ?_, ?_, ?_⟩
  · rw [measure_custom_threads]
    rfl
  · rw [hlen]
    decide
  · rw [measure_custom_result_eq, List.length_map, hlen]
  · rw [measure_custom_result_eq]
    rfl

/-- C8: the slow operation returns the sum of sin(i) for i = 0..99 plus its
input, and the non-input part of its work is one fixed quantity, identical
for all inputs. -/
theorem C8_slow_op (x y : ℝ) :
    slow_op x = (∑ i ∈ Finset.range 100, Real.sin (i : ℝ)) + x ∧
    slow_op x - x = slow_op y - y := by
  refine ⟨slow_op_eq x, ?_⟩
  rw [slow_op_eq x, slow_op_eq y]
  ring

/-- C9: no strategy mutates the sample array (it is returned unchanged by
every measured call), and each strategy allocates a result array whose length
equals the sample array's length. -/
theorem C9_no_mutation {α : Type} [Inhabited α] (data : List α) (op : α → α)
    (p : ExecutionPolicy) (K : Int) :
    (measure_transform data op).data_after = data ∧
    (measure_transform data op).result.length = data.length ∧
    (measure_policy_transform data op p).data_after = data ∧
    (measure_policy_transform data op p).result.length = data.length ∧
    (measure_custom_parallel_transform data op K).data_after = data ∧
    (measure_custom_parallel_transform data op K).result.length = data.length := by
  refine ⟨rfl, ?_, rfl, ?_, rfl, ?_⟩
  · simp [measure_transform, cppTransform]
  · simp [measure_policy_transform, cppTransform]
  · rw [measure_custom_result_eq, List.length_map]

/-- C10: when several candidates tie for the minimal time, the reported best
K is the earliest such candidate in the list (strict less-than tracking), and
for an empty candidate list the reported best K is 1 with no rows printed,
although candidate 1 was never run. -/
theorem C10_tie_break_and_empty (time : Int → ℚ) (K_values : List Int)
    (hne : K_values ≠ []) (hlt : ∀ K ∈ K_values, time K < dblMax) :
    measure_and_print_custom_parallel time [] = ([], 1) ∧
    ∃ i : Fin K_values.length,
      (measure_and_print_custom_parallel time K_values).2 = K_values.get i ∧
      (∀ j : Fin K_values.length, time (K_values.get i) ≤ time (K_values.get j)) ∧
      (∀ j : Fin K_values.length, (j : Nat) < (i : Nat)
        → time (K_values.get i) < time (K_values.get j)) := by
  refine ⟨rfl, ?_⟩
  have hsnd : (measure_and_print_custom_parallel time K_values).2
      = (selectBest time K_values (dblMax, 1)).2 :=
    congrArg Prod.snd (report_fold_snd time K_values [] (dblMax, 1))
  have hbeat : ∃ K ∈ K_values, time K < dblMax := by
    obtain ⟨K0, hK0⟩ := List.exists_mem_of_ne_nil K_values hne
    exact ⟨K0, hK0, hlt K0 hK0⟩
  obtain ⟨i, h1, _, h3, h4⟩ := selectBest_beat time K_values (dblMax, 1) hbeat
  refine ⟨i, ?_, h3, h4⟩
  rw [hsnd, h1]

theorem C10_tie_break_and_empty_witness :
    (([7, 2, 4] : List Int) ≠ []) ∧
    (∀ K ∈ ([7, 2, 4] : List Int), (fun _ => (5 : ℚ)) K < dblMax) ∧
    (measure_and_print_custom_parallel (fun _ => (5 : ℚ)) [] = ([], 1) ∧
      ∃ i : Fin ([7, 2, 4] : List Int).length,
        (measure_and_print_custom_parallel (fun _ => (5 : ℚ)) [7, 2, 4]).2
            = ([7, 2, 4] : List Int).get i ∧
        (∀ j : Fin ([7, 2, 4] : List Int).length,
          (fun _ => (5 : ℚ)) (([7, 2, 4] : List Int).get i)
            ≤ (fun _ => (5 : ℚ)) (([7, 2, 4] : List Int).get j)) ∧
        (∀ j : Fin ([7, 2, 4] : List Int).length, (j : Nat) < (i : Nat)
          → (fun _ => (5 : ℚ)) (([7, 2, 4] : List Int).get i)
            < (fun _ => (5 : ℚ)) (([7, 2, 4] : List Int).get j))) :=
  ⟨by decide, by intro K hK; norm_num [dblMax],
    C10_tie_break_and_empty (fun _ => (5 : ℚ)) [7, 2, 4] (by decide)
      (by intro K hK; norm_num [dblMax])⟩

end Bench
